import Mathlib

/-!
# Verification of the domain-coloring analysis pipeline

Shallow embedding of `domain_coloring.py`: grid sampling, color encoding,
winding-number estimation, recursive zero localization, zoom fitting and
branch-cut detection.  Machine floats are modelled by an arbitrary linear
ordered field `α` (instantiated at `ℝ` for the transcendental color
encoding and at `ℚ` for concrete executable witnesses); numpy arrays are
modelled as total index functions together with explicit row/column
counts; Python exceptions escaping a function are modelled by `Option`.
-/

namespace DomainColoring

variable {α : Type*} [LinearOrderedField α] [FloorRing α]

/-- Embedding of `_winding_path(val1, val2)`: the signed hue delta of one
boundary step, with wraparound handling.  `lim1 = 0.7`, `lim2 = 0.3` as in
the source. -/
def windingPath (val1 val2 : α) : α :=
  if val2 > 7/10 then
    (if val1 < 3/10 then 1 + val1 - val2 else val1 - val2)
  else if val2 < 3/10 then
    (if val1 > 7/10 then -1 + val1 - val2 else val1 - val2)
  else
    val1 - val2

/-- The wraparound indicator hidden inside `_winding_path`: `+1` for a
forward wrap (previous value `val2 > 0.7`, next value `val1 < 0.3`),
`-1` for a backward wrap, `0` otherwise. -/
def wrapInd (val1 val2 : α) : ℤ :=
  if val2 > 7/10 ∧ val1 < 3/10 then 1
  else if val2 < 3/10 ∧ val1 > 7/10 then -1
  else 0

theorem windingPath_eq_sub_add_wrapInd (val1 val2 : α) :
    windingPath val1 val2 = (val1 - val2) + ((wrapInd val1 val2 : ℤ) : α) := by
  by_cases h1 : val2 > 7/10
  · have h1' : ¬ val2 < 3/10 := by linarith
    by_cases h3 : val1 < 3/10 <;>
      simp [windingPath, wrapInd, h1, h1', h3] <;> (try push_cast) <;> ring
  · by_cases h2 : val2 < 3/10
    · by_cases h3 : val1 > 7/10 <;>
        simp [windingPath, wrapInd, h1, h2, h3] <;> (try push_cast) <;> ring
    · simp [windingPath, wrapInd, h1, h2]

/-- Python's built-in `round` (banker's rounding, halves to even),
followed by `int(...)`. -/
def pythonRound (x : α) : ℤ :=
  if Int.fract x = 1/2 then (if Even ⌊x⌋ then ⌊x⌋ else ⌊x⌋ + 1) else round x

theorem pythonRound_intCast (n : ℤ) : pythonRound ((n : ℤ) : α) = n := by
  unfold pythonRound
  rw [Int.fract_intCast]
  norm_num

/-- Embedding of `winding_num(hue, rect)`: walk the rectangle boundary and
sum the signed hue deltas of `_winding_path`, then round to an integer.
The hue array `hue[j][i]` is modelled as the function `hue j i` (row
first); a rectangle is a pair of `(col, row)` corners which the function
normalizes, as in the source.  The source accumulates the two horizontal
walks in one loop and the two vertical walks in another; here each loop
is a sum over `Finset.Ico`. -/
def windingNum (hue : ℕ → ℕ → α) (rect : (ℕ × ℕ) × (ℕ × ℕ)) : ℤ :=
  let x1 := if rect.1.1 > rect.2.1 then rect.2.1 else rect.1.1
  let x2 := if rect.1.1 > rect.2.1 then rect.1.1 else rect.2.1
  let y1 := if rect.1.2 > rect.2.2 then rect.2.2 else rect.1.2
  let y2 := if rect.1.2 > rect.2.2 then rect.1.2 else rect.2.2
  pythonRound
    ((∑ i ∈ Finset.Ico x1 x2,
        (windingPath (hue y2 (i+1)) (hue y2 i) + windingPath (hue y1 i) (hue y1 (i+1)))) +
     (∑ j ∈ Finset.Ico y1 y2,
        (windingPath (hue j x2) (hue (j+1) x2) + windingPath (hue (j+1) x1) (hue j x1))))

/-- Embedding of `_calc_zeros(hue, value, rect, zero_index, tol)`.  The
Python function mutates a shared `zero_index` set; here each call returns
the set of coordinates it adds, and recursive results are merged with
`∪`, which realizes the same set semantics.  `int(np.ceil((a + b) / 2))`
on nonnegative integers is `(a + b + 1) / 2` in `ℕ`.  Python's negative
spans compare to `3` the same way truncated `ℕ` subtraction does, since
both satisfy `span ≤ 3` exactly when the true difference is `≤ 3` or
negative. -/
def calcZeros (hue value : ℕ → ℕ → α) (tol : α) : (ℕ × ℕ) × (ℕ × ℕ) → Finset (ℕ × ℕ)
  | ((x1, y1), (x2, y2)) =>
    if hBase : y2 - y1 ≤ 3 ∧ x2 - x1 ≤ 3 then
      -- Base case: scan `i ∈ range(x1, x2)`, `j ∈ range(y1, y2)`.
      (Finset.Ico x1 x2 ×ˢ Finset.Ico y1 y2).filter (fun p => value p.2 p.1 < tol)
    else if windingNum hue ((x1, y1), (x2, y2)) = 0 then
      -- Edge scan: the four boundary walks of the source, merged as sets.
      ((Finset.Ico x1 x2).filter (fun i => value y1 i < tol)).image (fun i => (i, y1)) ∪
      ((Finset.Ico x1 x2).filter (fun i => value y2 i < tol)).image (fun i => (i, y2)) ∪
      ((Finset.Ico y1 y2).filter (fun j => value j x1 < tol)).image (fun j => (x1, j)) ∪
      ((Finset.Ico y1 y2).filter (fun j => value j x2 < tol)).image (fun j => (x2, j))
    else if hDir : y2 - y1 < x2 - x1 then
      calcZeros hue value tol ((x1, y1), ((x1 + x2 + 1) / 2, y2)) ∪
      calcZeros hue value tol (((x1 + x2 + 1) / 2, y1), (x2, y2))
    else
      calcZeros hue value tol ((x1, y1), (x2, (y1 + y2 + 1) / 2)) ∪
      calcZeros hue value tol ((x1, (y1 + y2 + 1) / 2), (x2, y2))
  termination_by r => (r.2.1 - r.1.1) + (r.2.2 - r.1.2)
  decreasing_by all_goals omega

/-- The starting rectangle of `zeros`: the whole grid when no rectangle
is supplied, otherwise the given corners normalized componentwise. -/
def startRect (rows cols : ℕ) (rect : Option ((ℕ × ℕ) × (ℕ × ℕ))) : (ℕ × ℕ) × (ℕ × ℕ) :=
  match rect with
  | none => ((0, 0), (cols - 1, rows - 1))
  | some r =>
    ((if r.1.1 > r.2.1 then r.2.1 else r.1.1, if r.1.2 > r.2.2 then r.2.2 else r.1.2),
     (if r.1.1 > r.2.1 then r.1.1 else r.2.1, if r.1.2 > r.2.2 then r.1.2 else r.2.2))

/-- The grid step recomputed inside `zeros`:
`(re_range[1] - re_range[0]) / (row - 1)`, derived from the real-axis
range and the ROW count (the source's documented asymmetry). -/
def zerosStep (reRange : α × α) (rows : ℕ) : α :=
  (reRange.2 - reRange.1) / (((rows : ℤ) - 1 : ℤ) : α)

/-- Lexicographic order used to enumerate the accumulated index set:
Python's `list(zero_index)` enumerates the set in unspecified interpreter
order, modelled here by a canonical enumeration. -/
def idxLe (p q : ℕ × ℕ) : Prop :=
  p.1 < q.1 ∨ (p.1 = q.1 ∧ p.2 ≤ q.2)

instance : DecidableRel idxLe := fun p q => by unfold idxLe; infer_instance

instance : IsTrans (ℕ × ℕ) idxLe := ⟨by unfold idxLe; omega⟩

instance : IsAntisymm (ℕ × ℕ) idxLe := by
  constructor
  unfold idxLe
  intro a b h1 h2
  have h : a.1 = b.1 ∧ a.2 = b.2 := by omega
  exact Prod.ext h.1 h.2

instance : IsTotal (ℕ × ℕ) idxLe := ⟨by unfold idxLe; omega⟩

/-- Canonical enumeration of the index set (see `idxLe`). -/
def indexEnum (s : Finset (ℕ × ℕ)) : List (ℕ × ℕ) :=
  s.sort idxLe

/-- Embedding of `zeros(hue, value, re_range, im_range, rect, tol)`.
The array shape `row, col = hue.shape` is passed explicitly as
`rows, cols`.  Returns `none` for the uncaught `ZeroDivisionError` when
`rows = 1`; otherwise returns the complex roots as `(re, im)` pairs
together with the index list, both enumerating the accumulated index set
in the same order. -/
def zeros (hue value : ℕ → ℕ → α) (rows cols : ℕ) (reRange imRange : α × α)
    (rect : Option ((ℕ × ℕ) × (ℕ × ℕ))) (tol : α) :
    Option (List (α × α) × List (ℕ × ℕ)) :=
  let zi := indexEnum (calcZeros hue value tol (startRect rows cols rect))
  if ((rows : ℤ) - 1) = 0 then none
  else
    let step := zerosStep reRange rows
    some (zi.map (fun p => (reRange.1 + (p.1 : α) * step, imRange.1 + (p.2 : α) * step)), zi)

/-- Python array index normalization: a negative index wraps from the
end of the axis (`value[-1]` is the last entry). -/
def pyWrapIdx (n : ℕ) (i : ℤ) : ℤ :=
  if i < 0 then i + n else i

/-- Total array access with Python index wraparound, used where the
source indexes with possibly negative integers. -/
def pyAt (g : ℕ → ℕ → α) (rows cols : ℕ) (j i : ℤ) : α :=
  g (pyWrapIdx rows j).toNat (pyWrapIdx cols i).toNat

/-- The loop of `_brightness`: walk one grid step at a time in the fixed
direction, counting steps in `diff`, until the read brightness reaches
`lightVal`.  A read outside the array (after Python wraparound) is the
`IndexError` that `_brightness` catches, modelled as `none`; likewise the
explicit `raise IndexError` when a coordinate becomes negative.  The
source reads `value[y][x]`, then moves, then increments `diff`, then
checks negativity, then re-tests the loop condition — in that order. -/
def brightnessAux (value : ℕ → ℕ → α) (rows cols : ℕ) (lightVal : α)
    (xVal maxVal : Bool) (x y : ℤ) (diff : ℕ) : Option ℕ :=
  if hIn : 0 ≤ pyWrapIdx rows y ∧ pyWrapIdx rows y < rows ∧
           0 ≤ pyWrapIdx cols x ∧ pyWrapIdx cols x < cols then
    let light := value (pyWrapIdx rows y).toNat (pyWrapIdx cols x).toNat
    let next : ℤ × ℤ :=
      match maxVal, xVal with
      | true, true => (x + 1, y)
      | true, false => (x, y + 1)
      | false, true => (x - 1, y)
      | false, false => (x, y - 1)
    if next.1 < 0 ∨ next.2 < 0 then none
    else if light < lightVal then
      brightnessAux value rows cols lightVal xVal maxVal next.1 next.2 (diff + 1)
    else some (diff + 1)
  else none
  termination_by
    (if maxVal then ((cols : ℤ) - x) + ((rows : ℤ) - y) else x + y).toNat
  decreasing_by
    simp only [pyWrapIdx] at hIn
    cases maxVal <;> cases xVal <;> simp at * <;> split_ifs at hIn <;> omega

/-- Embedding of `_brightness(value, x, y, light_val, x_val, max_val)`.
`light` starts at `0`, so the loop body runs at least once exactly when
`0 < light_val`. -/
def brightness (value : ℕ → ℕ → α) (rows cols : ℕ) (x y : ℤ) (lightVal : α)
    (xVal maxVal : Bool) : Option ℕ :=
  if 0 < lightVal then brightnessAux value rows cols lightVal xVal maxVal x y 0
  else some 0

/-- The bounding-box fold of `zoom_fit_zero`.  State is
`(x_max, x_min, y_max, y_min)`.  NOTE: the source iterates
`for y, x in zero_index[1:]`, so for every entry after the first the
FIRST tuple component is read as `y` and the SECOND as `x`, although
entries are stored as `(col, row)`; this swap is reproduced faithfully. -/
def zoomBox (zeroIndex : List (ℤ × ℤ)) (p0 : ℤ × ℤ) : ℤ × ℤ × ℤ × ℤ :=
  zeroIndex.foldl
    (fun b p =>
      let y := p.1
      let x := p.2
      let xMax := if x > b.1 then x else b.1
      let xMin := if x > b.1 then b.2.1 else (if x < b.2.1 then x else b.2.1)
      let yMax := if y > b.2.2.1 then y else b.2.2.1
      let yMin := if y > b.2.2.1 then b.2.2.2 else (if y < b.2.2.2 then y else b.2.2.2)
      (xMax, xMin, yMax, yMin))
    (p0.1, p0.1, p0.2, p0.2)

/-- Embedding of `zoom_fit_zero(zero_index, value, re_range, im_range,
step, light_val)`.  The array shape is passed as `rows, cols`.  `none`
models the uncaught `ZeroDivisionError` raised when `step = 0` (in
`num_re_step`) or when `num_re_step = 0` (in `new_step`); both can only
be reached with a non-empty index list and four successful walks. -/
def zoomFitZero (value : ℕ → ℕ → α) (rows cols : ℕ) (zeroIndex : List (ℤ × ℤ))
    (reRange imRange : α × α) (step : α) (lightVal : α) :
    Option ((α × α) × (α × α) × α) :=
  match zeroIndex with
  | [] => some (reRange, imRange, step)
  | p0 :: rest =>
    let b := zoomBox rest p0
    let xMax := b.1
    let xMin := b.2.1
    let yMax := b.2.2.1
    let yMin := b.2.2.2
    let diffXMin := brightness value rows cols xMin yMin lightVal true false
    let diffYMin := brightness value rows cols xMax yMin lightVal false false
    let diffXMax := brightness value rows cols xMax yMax lightVal true true
    let diffYMax := brightness value rows cols xMin yMax lightVal false true
    match diffXMin, diffYMin, diffXMax, diffYMax with
    | some dxm, some dym, some dxM, some dyM =>
      if step = 0 then none
      else
        let numReStep := (reRange.2 - reRange.1) / step
        if numReStep = 0 then none
        else
          let lowerRe := reRange.1 + ((xMin - (dxm : ℤ) + 1 : ℤ) : α) * step
          let upperRe := reRange.2 - (((cols : ℤ) - xMax - (dxM : ℤ) : ℤ) : α) * step
          let lowerIm := imRange.1 + ((yMin - (dym : ℤ) + 1 : ℤ) : α) * step
          let upperIm := imRange.2 - (((rows : ℤ) - yMax - (dyM : ℤ) : ℤ) : α) * step
          some ((lowerRe, upperRe), (lowerIm, upperIm), (upperRe - lowerRe) / numReStep)
    | _, _, _, _ => some (reRange, imRange, step)

/-- Embedding of `branch_cut(hue, value, re_range, im_range, step)`.
Array accesses go through `pyAt` (total, with Python negative-index
wraparound); an access past the end of an axis, which would raise in
numpy, is modelled by the total index function — the claims settled
against this definition only exercise the early-return path or in-range
accesses.  Thresholds: `branch_lim = 0.4`, `deviation = 2`,
`lim1 = 0.9`, `lim2 = 0.1`, `tol = 0.2`. -/
def branchCut (hue value : ℕ → ℕ → α) (rows cols : ℕ) (reRange imRange : α × α)
    (step : α) : Bool :=
  let reAxisIn : Prop := imRange.1 < 0 ∧ 0 < imRange.2
  let imAxisIn : Prop := reRange.1 < 0 ∧ 0 < reRange.2
  if ¬(reAxisIn ∨ imAxisIn) then false
  else
    let yZero1 := ⌈|imRange.1| / step⌉ - 2
    let yZero2 := ⌈|imRange.1| / step⌉ + 2
    let xZero1 := ⌈|reRange.1| / step⌉ - 2
    let xZero2 := ⌈|reRange.1| / step⌉ + 2
    let reHit : Prop := reAxisIn ∧ ∃ i ∈ Finset.range cols,
      ¬((pyAt hue rows cols yZero1 i > 9/10 ∧ pyAt hue rows cols yZero2 i < 1/10) ∨
        (pyAt hue rows cols yZero2 i > 9/10 ∧ pyAt hue rows cols yZero1 i < 1/10)) ∧
      pyAt value rows cols yZero1 i > 2/10 ∧ pyAt value rows cols yZero2 i > 2/10 ∧
      |pyAt hue rows cols yZero1 i - pyAt hue rows cols yZero2 i| > 4/10
    let imHit : Prop := imAxisIn ∧ ∃ j ∈ Finset.range rows,
      ¬((pyAt hue rows cols j xZero1 > 9/10 ∧ pyAt hue rows cols j xZero2 < 1/10) ∨
        (pyAt hue rows cols j xZero2 > 9/10 ∧ pyAt hue rows cols j xZero1 < 1/10)) ∧
      pyAt value rows cols j xZero1 > 2/10 ∧ pyAt value rows cols j xZero2 > 2/10 ∧
      |pyAt hue rows cols j xZero1 - pyAt hue rows cols j xZero2| > 4/10
    if reHit then true
    else if imHit then true
    else false

open Real Complex in
/-- numpy's floored modulo on reals: `a % b = a - b * ⌊a / b⌋`. -/
noncomputable def realMod (a b : ℝ) : ℝ := a - b * ⌊a / b⌋

open Real Complex in
/-- The hue channel of `colors`:
`(angle(z) + 2*pi) % (2*pi) / (2*pi)`, with `np.angle` embedded as
`Complex.arg` (range `(-π, π]`, `arg 0 = 0`, as in numpy). -/
noncomputable def colorsHue (z : ℂ) : ℝ := realMod (arg z + 2 * π) (2 * π) / (2 * π)

open Real Complex in
/-- The value (brightness) channel of `colors`:
`2/pi * arctan(|z|)`. -/
noncomputable def colorsValue (z : ℂ) : ℝ := 2 / π * Real.arctan (Complex.abs z)

/-- Pointwise embedding of `colors(func_val)`: numpy applies the hue and
value formulas elementwise, so an array of complex samples maps to the
pair of arrays given by applying `colors` at every index; shape is
preserved by construction. -/
noncomputable def colors (z : ℂ) : ℝ × ℝ := (colorsHue z, colorsValue z)

open Complex in
/-- Embedding of `func_grid(func, re_range, im_range, step)`:
`result[j][i] = func(re_range[0] + i*step + (im_range[1] - j*step)*1j)`;
`np.arange(re_range[0], re_range[1] + step, step)` walks the real axis
up from the lower bound while rows walk the imaginary axis down from the
upper bound.  The source's replacement of samples with real part `+inf`
by `0` has no counterpart in the real-number semantics, where no sample
is infinite. -/
def funcGrid (func : ℂ → ℂ) (reRange imRange : ℝ × ℝ) (step : ℝ) (j i : ℕ) : ℂ :=
  func ((reRange.1 + i * step : ℝ) + (imRange.2 - j * step : ℝ) * I)

open Real Complex in
theorem colorsHue_eq_ite (z : ℂ) :
    colorsHue z = if arg z < 0 then (arg z + 2 * π) / (2 * π) else arg z / (2 * π) := by
  have hpi : (0:ℝ) < π := pi_pos
  have h2pi : (0:ℝ) < 2 * π := by linarith
  have h1 : -π < arg z := neg_pi_lt_arg z
  have h2 : arg z ≤ π := arg_le_pi z
  unfold colorsHue realMod
  split_ifs with hneg
  · have hfl : ⌊(arg z + 2 * π) / (2 * π)⌋ = 0 := by
      rw [Int.floor_eq_zero_iff]
      constructor
      · rw [le_div_iff h2pi]; linarith
      · rw [div_lt_one h2pi]; linarith
    rw [hfl]
    push_cast
    ring_nf
  · push_neg at hneg
    have hfl : ⌊(arg z + 2 * π) / (2 * π)⌋ = 1 := by
      have : (arg z + 2 * π) / (2 * π) = arg z / (2 * π) + 1 := by
        field_simp
      rw [this, Int.floor_add_one]
      have hz : ⌊arg z / (2 * π)⌋ = 0 := by
        rw [Int.floor_eq_zero_iff]
        constructor
        · exact div_nonneg hneg h2pi.le
        · rw [div_lt_one h2pi]; linarith
      rw [hz]
      norm_num
    rw [hfl]
    push_cast
    ring_nf

open Real Complex in
theorem colorsHue_nonneg (z : ℂ) : 0 ≤ colorsHue z := by
  have hpi : (0:ℝ) < π := pi_pos
  have h2pi : (0:ℝ) < 2 * π := by linarith
  have h1 : -π < arg z := neg_pi_lt_arg z
  rw [colorsHue_eq_ite]
  split_ifs with hneg
  · apply div_nonneg _ h2pi.le; linarith
  · push_neg at hneg
    exact div_nonneg hneg h2pi.le

open Real Complex in
theorem colorsHue_lt_one (z : ℂ) : colorsHue z < 1 := by
  have hpi : (0:ℝ) < π := pi_pos
  have h2pi : (0:ℝ) < 2 * π := by linarith
  have h2 : arg z ≤ π := arg_le_pi z
  rw [colorsHue_eq_ite]
  split_ifs with hneg
  · rw [div_lt_one h2pi]; linarith
  · rw [div_lt_one h2pi]; linarith

open Real Complex in
theorem colorsValue_nonneg (z : ℂ) : 0 ≤ colorsValue z := by
  have hpi : (0:ℝ) < π := pi_pos
  apply mul_nonneg (by positivity)
  rw [← Real.arctan_zero]
  exact Real.arctan_strictMono.monotone (Complex.abs.nonneg z)

open Real Complex in
theorem colorsValue_lt_one (z : ℂ) : colorsValue z < 1 := by
  have hpi : (0:ℝ) < π := pi_pos
  have h : Real.arctan (Complex.abs z) < π / 2 := arctan_lt_pi_div_two _
  have h2 : (0:ℝ) < 2 / π := by positivity
  unfold colorsValue
  calc 2 / π * Real.arctan (Complex.abs z) < 2 / π * (π / 2) := mul_lt_mul_of_pos_left h h2
  _ = 1 := by field_simp

/-!
## Exact decision of the hue wrap thresholds

`hue > 0.7` and `hue < 0.3` correspond to `arg ∈ (-3π/5, 0)` and
`arg ∈ [0, 3π/5)`.  Comparing `arg` with `3π/5` reduces, via
`cos (3π/5) = (1 - √5)/4`, to polynomial inequalities in the real and
imaginary parts, decidable over the integers for integer sample points.
-/

/-- The polynomial predicate equivalent to `|arg z| < 3π/5`
(given the sign of `im` handled separately): either `0 ≤ re`, or the
squared comparison of `4·|re|` against `(√5 - 1)·|z|`. -/
def wrapPred (x y : ℝ) : Prop :=
  0 ≤ x ∨ (5 * x^2 < 3 * y^2 ∧ 20 * (x^2 + y^2)^2 < (6 * y^2 - 10 * x^2)^2)

open Real in
theorem cos_three_pi_div_five : Real.cos (3 * π / 5) = (1 - Real.sqrt 5) / 4 := by
  have h5 : Real.sqrt 5 ^ 2 = 5 := Real.sq_sqrt (by norm_num)
  have h1 : (3 : ℝ) * π / 5 = π - 2 * (π / 5) := by ring
  rw [h1, Real.cos_pi_sub, Real.cos_two_mul, Real.cos_pi_div_five]
  nlinarith [h5]

open Real in
theorem cos_lt_iff_wrapPred (w : ℂ) (hw : w ≠ 0) :
    (1 - Real.sqrt 5) / 4 < w.re / Complex.abs w ↔ wrapPred w.re w.im := by
  have hr : 0 < Complex.abs w := Complex.abs.pos hw
  have h5 : Real.sqrt 5 ^ 2 = 5 := Real.sq_sqrt (by norm_num)
  have h5pos : 0 < Real.sqrt 5 := Real.sqrt_pos.mpr (by norm_num)
  have h51 : 1 < Real.sqrt 5 := by nlinarith
  have habs : (Complex.abs w) ^ 2 = w.re ^ 2 + w.im ^ 2 := by
    rw [Complex.sq_abs, Complex.normSq_apply]; ring
  unfold wrapPred
  constructor
  · intro h
    rcases le_or_lt 0 w.re with hre | hre
    · exact Or.inl hre
    · right
      have h4 : (1 - Real.sqrt 5) / 4 * Complex.abs w < w.re :=
        (lt_div_iff hr).mp h
      -- `(√5 - 1) * |w| > 4 * (-re)`, both sides positive
      have hs : 4 * (-w.re) < (Real.sqrt 5 - 1) * Complex.abs w := by nlinarith
      have hsq : 16 * w.re ^ 2 < (6 - 2 * Real.sqrt 5) * (w.re ^ 2 + w.im ^ 2) := by
        have h1 : (4 * (-w.re)) ^ 2 < ((Real.sqrt 5 - 1) * Complex.abs w) ^ 2 := by
          apply pow_lt_pow_left hs (by linarith) (by norm_num)
        calc 16 * w.re ^ 2 = (4 * (-w.re)) ^ 2 := by ring
        _ < ((Real.sqrt 5 - 1) * Complex.abs w) ^ 2 := h1
        _ = (6 - 2 * Real.sqrt 5) * (w.re ^ 2 + w.im ^ 2) := by
            rw [mul_pow, habs]; nlinarith [h5]
      have hcore : 2 * Real.sqrt 5 * (w.re ^ 2 + w.im ^ 2) < 6 * w.im ^ 2 - 10 * w.re ^ 2 := by
        nlinarith
      have hpos0 : 0 < w.re ^ 2 + w.im ^ 2 := by nlinarith [habs]
      have hL : 0 < 6 * w.im ^ 2 - 10 * w.re ^ 2 := by nlinarith
      constructor
      · nlinarith
      · have h2 : (2 * Real.sqrt 5 * (w.re ^ 2 + w.im ^ 2)) ^ 2 <
            (6 * w.im ^ 2 - 10 * w.re ^ 2) ^ 2 := by
          apply pow_lt_pow_left hcore (by positivity) (by norm_num)
        have h20 : (2 * Real.sqrt 5 * (w.re ^ 2 + w.im ^ 2)) ^ 2
            = 20 * (w.re ^ 2 + w.im ^ 2) ^ 2 := by
          rw [mul_pow, mul_pow, h5]; ring
        linarith
  · intro h
    rcases h with hre | ⟨h1, h2⟩
    · have : 0 ≤ w.re / Complex.abs w := div_nonneg hre hr.le
      have hneg : (1 - Real.sqrt 5) / 4 < 0 := by nlinarith
      linarith
    · -- from the squared comparisons back to the cosine comparison
      have hpos0 : 0 < w.re ^ 2 + w.im ^ 2 := by nlinarith [habs, hr]
      have hL : 0 < 6 * w.im ^ 2 - 10 * w.re ^ 2 := by nlinarith
      have hcore : 2 * Real.sqrt 5 * (w.re ^ 2 + w.im ^ 2) < 6 * w.im ^ 2 - 10 * w.re ^ 2 := by
        have ha : 0 ≤ 2 * Real.sqrt 5 * (w.re ^ 2 + w.im ^ 2) := by positivity
        nlinarith [sq_nonneg (2 * Real.sqrt 5 * (w.re ^ 2 + w.im ^ 2) -
          (6 * w.im ^ 2 - 10 * w.re ^ 2))]
      have hsq : 16 * w.re ^ 2 < (6 - 2 * Real.sqrt 5) * (w.re ^ 2 + w.im ^ 2) := by
        nlinarith
      have hs : 4 * |w.re| < (Real.sqrt 5 - 1) * Complex.abs w := by
        have hb : 0 < (Real.sqrt 5 - 1) * Complex.abs w := by
          apply mul_pos (by linarith) hr
        have hre2 : |w.re| ^ 2 = w.re ^ 2 := sq_abs w.re
        have hsq2 : (4 * |w.re|) ^ 2 < ((Real.sqrt 5 - 1) * Complex.abs w) ^ 2 := by
          rw [mul_pow, mul_pow, hre2, habs]
          calc 4 ^ 2 * w.re ^ 2 = 16 * w.re ^ 2 := by ring
          _ < (6 - 2 * Real.sqrt 5) * (w.re ^ 2 + w.im ^ 2) := hsq
          _ = (Real.sqrt 5 - 1) ^ 2 * (w.re ^ 2 + w.im ^ 2) := by nlinarith [h5]
        nlinarith [abs_nonneg w.re]
      rw [lt_div_iff hr]
      calc (1 - Real.sqrt 5) / 4 * Complex.abs w
          = -((Real.sqrt 5 - 1) * Complex.abs w) / 4 := by ring
      _ < -(4 * |w.re|) / 4 := by linarith
      _ = -|w.re| := by ring
      _ ≤ w.re := neg_abs_le w.re

open Real Complex in
theorem colorsHue_zero : colorsHue 0 = 0 := by
  rw [colorsHue_eq_ite]
  simp [Complex.arg_zero]

open Real Complex in
/-- `hue < 0.3` holds exactly on `arg ∈ [0, 3π/5)`, characterized by the
sign of `im` and the polynomial predicate `wrapPred`. -/
theorem colorsHue_lt_three_tenths_iff (w : ℂ) :
    colorsHue w < 3/10 ↔ (0 ≤ w.im ∧ wrapPred w.re w.im) := by
  have hpi : (0:ℝ) < π := pi_pos
  have h2pi : (0:ℝ) < 2 * π := by linarith
  rcases eq_or_ne w 0 with rfl | hw
  · simp [colorsHue_zero, wrapPred]
  · have h1 : -π < arg w := neg_pi_lt_arg w
    have h2 : arg w ≤ π := arg_le_pi w
    have hmem35 : 3 * π / 5 ∈ Set.Icc (0:ℝ) π := by
      constructor <;> [positivity; linarith]
    constructor
    · intro h
      have him : 0 ≤ w.im := by
        by_contra him
        push_neg at him
        have harg : arg w < 0 := arg_neg_iff.mpr him
        rw [colorsHue_eq_ite, if_pos harg] at h
        rw [div_lt_iff h2pi] at h
        linarith
      refine ⟨him, ?_⟩
      have harg : 0 ≤ arg w := arg_nonneg_iff.mpr him
      rw [colorsHue_eq_ite, if_neg (not_lt.mpr harg), div_lt_iff h2pi] at h
      have hlt : arg w < 3 * π / 5 := by linarith
      have hcos : Real.cos (3 * π / 5) < Real.cos (arg w) :=
        strictAntiOn_cos ⟨harg, h2⟩ hmem35 hlt
      rw [cos_three_pi_div_five, Complex.cos_arg hw] at hcos
      exact (cos_lt_iff_wrapPred w hw).mp hcos
    · rintro ⟨him, hpred⟩
      have harg : 0 ≤ arg w := arg_nonneg_iff.mpr him
      have hcos : (1 - Real.sqrt 5) / 4 < w.re / Complex.abs w :=
        (cos_lt_iff_wrapPred w hw).mpr hpred
      rw [← Complex.cos_arg hw, ← cos_three_pi_div_five] at hcos
      have hlt : arg w < 3 * π / 5 := by
        by_contra hge
        push_neg at hge
        rcases eq_or_lt_of_le hge with heq | hgt
        · rw [heq] at hcos; exact lt_irrefl _ hcos
        · exact absurd (strictAntiOn_cos hmem35 ⟨harg, h2⟩ hgt) (not_lt.mpr hcos.le)
      rw [colorsHue_eq_ite, if_neg (not_lt.mpr harg), div_lt_iff h2pi]
      linarith

open Real Complex in
/-- `hue > 0.7` holds exactly on `arg ∈ (-3π/5, 0)`, characterized by the
sign of `im` and the polynomial predicate `wrapPred`. -/
theorem colorsHue_gt_seven_tenths_iff (w : ℂ) :
    7/10 < colorsHue w ↔ (w.im < 0 ∧ wrapPred w.re w.im) := by
  have hpi : (0:ℝ) < π := pi_pos
  have h2pi : (0:ℝ) < 2 * π := by linarith
  rcases eq_or_ne w 0 with rfl | hw
  · rw [colorsHue_zero]
    constructor
    · intro h; norm_num at h
    · rintro ⟨h, -⟩; simp at h
  · have h1 : -π < arg w := neg_pi_lt_arg w
    have h2 : arg w ≤ π := arg_le_pi w
    have hmem35 : 3 * π / 5 ∈ Set.Icc (0:ℝ) π := by
      constructor <;> [positivity; linarith]
    have hcosneg : Real.cos (arg w) = Real.cos (-(arg w)) := (Real.cos_neg _).symm
    constructor
    · intro h
      have him : w.im < 0 := by
        by_contra him
        push_neg at him
        have harg : 0 ≤ arg w := arg_nonneg_iff.mpr him
        rw [colorsHue_eq_ite, if_neg (not_lt.mpr harg), lt_div_iff h2pi] at h
        linarith
      refine ⟨him, ?_⟩
      have harg : arg w < 0 := arg_neg_iff.mpr him
      rw [colorsHue_eq_ite, if_pos harg, lt_div_iff h2pi] at h
      have hlt : -(arg w) < 3 * π / 5 := by linarith
      have hmemb : -(arg w) ∈ Set.Icc (0:ℝ) π := ⟨by linarith, by linarith⟩
      have hcos : Real.cos (3 * π / 5) < Real.cos (-(arg w)) :=
        strictAntiOn_cos hmemb hmem35 hlt
      rw [← hcosneg, cos_three_pi_div_five, Complex.cos_arg hw] at hcos
      exact (cos_lt_iff_wrapPred w hw).mp hcos
    · rintro ⟨him, hpred⟩
      have harg : arg w < 0 := arg_neg_iff.mpr him
      have hcos : (1 - Real.sqrt 5) / 4 < w.re / Complex.abs w :=
        (cos_lt_iff_wrapPred w hw).mpr hpred
      rw [← Complex.cos_arg hw, hcosneg, ← cos_three_pi_div_five] at hcos
      have hmemb : -(arg w) ∈ Set.Icc (0:ℝ) π := ⟨by linarith, by linarith⟩
      have hlt : -(arg w) < 3 * π / 5 := by
        by_contra hge
        push_neg at hge
        rcases eq_or_lt_of_le hge with heq | hgt
        · rw [← heq] at hcos; exact lt_irrefl _ hcos
        · exact absurd (strictAntiOn_cos hmem35 hmemb hgt) (not_lt.mpr hcos.le)
      rw [colorsHue_eq_ite, if_pos harg, lt_div_iff h2pi]
      linarith

/-- Executable integer form of `wrapPred` at a Gaussian-integer point. -/
def wrapPredB (p : ℤ × ℤ) : Bool :=
  decide (0 ≤ p.1) ||
    (decide (5 * p.1 ^ 2 < 3 * p.2 ^ 2) &&
     decide (20 * (p.1 ^ 2 + p.2 ^ 2) ^ 2 < (6 * p.2 ^ 2 - 10 * p.1 ^ 2) ^ 2))

/-- Executable decision of `hue > 0.7` at a Gaussian-integer point. -/
def hueGtB (p : ℤ × ℤ) : Bool := decide (p.2 < 0) && wrapPredB p

/-- Executable decision of `hue < 0.3` at a Gaussian-integer point. -/
def hueLtB (p : ℤ × ℤ) : Bool := decide (0 ≤ p.2) && wrapPredB p

theorem wrapPredB_iff (p : ℤ × ℤ) :
    wrapPredB p = true ↔ wrapPred (p.1 : ℝ) (p.2 : ℝ) := by
  unfold wrapPredB wrapPred
  simp only [Bool.or_eq_true, Bool.and_eq_true, decide_eq_true_eq]
  constructor <;> intro h <;> exact_mod_cast h

/-- The complex number with integer coordinates `p`. -/
noncomputable def zOf (p : ℤ × ℤ) : ℂ := Complex.mk (p.1 : ℝ) (p.2 : ℝ)

theorem zOf_re (p : ℤ × ℤ) : (zOf p).re = (p.1 : ℝ) := rfl

theorem zOf_im (p : ℤ × ℤ) : (zOf p).im = (p.2 : ℝ) := rfl

theorem colorsHue_gt_iff_hueGtB (p : ℤ × ℤ) :
    7/10 < colorsHue (zOf p) ↔ hueGtB p = true := by
  rw [colorsHue_gt_seven_tenths_iff, zOf_re, zOf_im]
  unfold hueGtB
  rw [Bool.and_eq_true, wrapPredB_iff, decide_eq_true_eq]
  constructor
  · rintro ⟨h1, h2⟩; exact ⟨by exact_mod_cast h1, h2⟩
  · rintro ⟨h1, h2⟩; exact ⟨by exact_mod_cast h1, h2⟩

theorem colorsHue_lt_iff_hueLtB (p : ℤ × ℤ) :
    colorsHue (zOf p) < 3/10 ↔ hueLtB p = true := by
  rw [colorsHue_lt_three_tenths_iff, zOf_re, zOf_im]
  unfold hueLtB
  rw [Bool.and_eq_true, wrapPredB_iff, decide_eq_true_eq]
  constructor
  · rintro ⟨h1, h2⟩; exact ⟨by exact_mod_cast h1, h2⟩
  · rintro ⟨h1, h2⟩; exact ⟨by exact_mod_cast h1, h2⟩

/-- Integer-level wraparound indicator mirroring `wrapInd` through the
decidable predicates. -/
def wrapIndB (p1 p2 : ℤ × ℤ) : ℤ :=
  if hueGtB p2 && hueLtB p1 then 1
  else if hueLtB p2 && hueGtB p1 then -1
  else 0

/-- Integer-level net wrap count along the boundary walk of
`winding_num`, with the same four edge loops. -/
def netWrap (g : ℕ → ℕ → ℤ × ℤ) (x1 y1 x2 y2 : ℕ) : ℤ :=
  (∑ i ∈ Finset.Ico x1 x2,
      (wrapIndB (g y2 (i+1)) (g y2 i) + wrapIndB (g y1 i) (g y1 (i+1)))) +
  (∑ j ∈ Finset.Ico y1 y2,
      (wrapIndB (g j x2) (g (j+1) x2) + wrapIndB (g (j+1) x1) (g j x1)))

theorem wrapInd_eq_wrapIndB (v1 v2 : ℝ) (p1 p2 : ℤ × ℤ)
    (h1gt : 7/10 < v1 ↔ hueGtB p1 = true) (h1lt : v1 < 3/10 ↔ hueLtB p1 = true)
    (h2gt : 7/10 < v2 ↔ hueGtB p2 = true) (h2lt : v2 < 3/10 ↔ hueLtB p2 = true) :
    wrapInd v1 v2 = wrapIndB p1 p2 := by
  unfold wrapInd wrapIndB
  have e1 : (v2 > 7/10 ∧ v1 < 3/10) ↔ (hueGtB p2 && hueLtB p1) = true := by
    rw [Bool.and_eq_true]; exact and_congr h2gt h1lt
  have e2 : (v2 < 3/10 ∧ v1 > 7/10) ↔ (hueLtB p2 && hueGtB p1) = true := by
    rw [Bool.and_eq_true]; exact and_congr h2lt h1gt
  rw [if_congr e1 rfl (if_congr e2 rfl rfl)]

/-- Telescoping: summing `f (i+1) - f i` over `Ico a b` gives
`f b - f a`. -/
theorem sum_Ico_telescope (f : ℕ → ℝ) (a b : ℕ) (hab : a ≤ b) :
    (∑ i ∈ Finset.Ico a b, (f (i + 1) - f i)) = f b - f a := by
  rw [Finset.sum_Ico_eq_sum_range]
  have h : ∀ n, (∑ i ∈ Finset.range n, (f (a + i + 1) - f (a + i))) = f (a + n) - f a := by
    intro n
    induction n with
    | zero => simp
    | succ k ih => rw [Finset.sum_range_succ, ih]; ring_nf
  have h2 := h (b - a)
  have h3 : a + (b - a) = b := by omega
  rw [h3] at h2
  calc (∑ i ∈ Finset.range (b - a), (f (a + i + 1) - f (a + i))) = f b - f a := h2

/-- The winding sum of `winding_num` is exactly the integer net wrap
count: the plain hue differences telescope to zero around the closed
boundary and only the wraparound corrections remain.  The hue field `h`
and the integer point field `g` are related pointwise through the
decidable threshold predicates. -/
theorem windingNum_eq_netWrap (h : ℕ → ℕ → ℝ) (g : ℕ → ℕ → ℤ × ℤ) (x1 y1 x2 y2 : ℕ)
    (hx : x1 ≤ x2) (hy : y1 ≤ y2)
    (hgt : ∀ j i, (7/10 < h j i ↔ hueGtB (g j i) = true))
    (hlt : ∀ j i, (h j i < 3/10 ↔ hueLtB (g j i) = true)) :
    windingNum h ((x1, y1), (x2, y2)) = netWrap g x1 y1 x2 y2 := by
  unfold windingNum
  simp only [gt_iff_lt, not_lt.mpr hx, not_lt.mpr hy, if_false]
  have hpath : ∀ v1 v2 p1 p2, (7/10 < v1 ↔ hueGtB p1 = true) →
      (v1 < 3/10 ↔ hueLtB p1 = true) → (7/10 < v2 ↔ hueGtB p2 = true) →
      (v2 < 3/10 ↔ hueLtB p2 = true) →
      windingPath v1 v2 = (v1 - v2) + ((wrapIndB p1 p2 : ℤ) : ℝ) := by
    intro v1 v2 p1 p2 a b c d
    rw [windingPath_eq_sub_add_wrapInd, wrapInd_eq_wrapIndB v1 v2 p1 p2 a b c d]
  have hsum1 : (∑ i ∈ Finset.Ico x1 x2,
      (windingPath (h y2 (i+1)) (h y2 i) + windingPath (h y1 i) (h y1 (i+1)))) =
      (∑ i ∈ Finset.Ico x1 x2, ((h y2 (i+1) - h y2 i) + (h y1 i - h y1 (i+1)))) +
      (∑ i ∈ Finset.Ico x1 x2,
        (((wrapIndB (g y2 (i+1)) (g y2 i) + wrapIndB (g y1 i) (g y1 (i+1))) : ℤ) : ℝ)) := by
    rw [← Finset.sum_add_distrib]
    apply Finset.sum_congr rfl
    intro i _
    rw [hpath _ _ _ _ (hgt y2 (i+1)) (hlt y2 (i+1)) (hgt y2 i) (hlt y2 i),
      hpath _ _ _ _ (hgt y1 i) (hlt y1 i) (hgt y1 (i+1)) (hlt y1 (i+1))]
    push_cast
    ring
  have hsum2 : (∑ j ∈ Finset.Ico y1 y2,
      (windingPath (h j x2) (h (j+1) x2) + windingPath (h (j+1) x1) (h j x1))) =
      (∑ j ∈ Finset.Ico y1 y2, ((h j x2 - h (j+1) x2) + (h (j+1) x1 - h j x1))) +
      (∑ j ∈ Finset.Ico y1 y2,
        (((wrapIndB (g j x2) (g (j+1) x2) + wrapIndB (g (j+1) x1) (g j x1)) : ℤ) : ℝ)) := by
    rw [← Finset.sum_add_distrib]
    apply Finset.sum_congr rfl
    intro j _
    rw [hpath _ _ _ _ (hgt j x2) (hlt j x2) (hgt (j+1) x2) (hlt (j+1) x2),
      hpath _ _ _ _ (hgt (j+1) x1) (hlt (j+1) x1) (hgt j x1) (hlt j x1)]
    push_cast
    ring
  have htel1 : (∑ i ∈ Finset.Ico x1 x2, ((h y2 (i+1) - h y2 i) + (h y1 i - h y1 (i+1)))) =
      (h y2 x2 - h y2 x1) - (h y1 x2 - h y1 x1) := by
    rw [Finset.sum_add_distrib, sum_Ico_telescope (fun i => h y2 i) x1 x2 hx]
    have : (∑ i ∈ Finset.Ico x1 x2, (h y1 i - h y1 (i+1))) =
        -(∑ i ∈ Finset.Ico x1 x2, (h y1 (i+1) - h y1 i)) := by
      rw [← Finset.sum_neg_distrib]
      apply Finset.sum_congr rfl
      intro i _
      ring
    rw [this, sum_Ico_telescope (fun i => h y1 i) x1 x2 hx]
    ring
  have htel2 : (∑ j ∈ Finset.Ico y1 y2, ((h j x2 - h (j+1) x2) + (h (j+1) x1 - h j x1))) =
      -((h y2 x2 - h y1 x2) - (h y2 x1 - h y1 x1)) := by
    rw [Finset.sum_add_distrib]
    have e1 : (∑ j ∈ Finset.Ico y1 y2, (h j x2 - h (j+1) x2)) =
        -(∑ j ∈ Finset.Ico y1 y2, (h (j+1) x2 - h j x2)) := by
      rw [← Finset.sum_neg_distrib]
      apply Finset.sum_congr rfl
      intro j _
      ring
    rw [e1, sum_Ico_telescope (fun j => h j x2) y1 y2 hy,
      sum_Ico_telescope (fun j => h j x1) y1 y2 hy]
    ring
  rw [hsum1, hsum2, htel1, htel2]
  have hfinal : (h y2 x2 - h y2 x1) - (h y1 x2 - h y1 x1) +
      (∑ i ∈ Finset.Ico x1 x2,
        (((wrapIndB (g y2 (i+1)) (g y2 i) + wrapIndB (g y1 i) (g y1 (i+1))) : ℤ) : ℝ)) +
      (-((h y2 x2 - h y1 x2) - (h y2 x1 - h y1 x1)) +
       (∑ j ∈ Finset.Ico y1 y2,
        (((wrapIndB (g j x2) (g (j+1) x2) + wrapIndB (g (j+1) x1) (g j x1)) : ℤ) : ℝ))) =
      ((netWrap g x1 y1 x2 y2 : ℤ) : ℝ) := by
    unfold netWrap
    push_cast
    ring
  rw [hfinal, pythonRound_intCast]

open Complex in
/-- Hue is scale invariant: multiplying the sample by a positive real
leaves the phase, hence the hue, unchanged. -/
theorem colorsHue_real_mul (r : ℝ) (hr : 0 < r) (z : ℂ) :
    colorsHue ((r : ℂ) * z) = colorsHue z := by
  unfold colorsHue
  rw [Complex.arg_real_mul z hr]

/-- `10 · z` at grid point `(j, i)` of the 201×201 test grid
(`re_range = im_range = (-10, 10)`, `step = 0.1`) for `f(z) = z`. -/
def gZ1 (j i : ℕ) : ℤ × ℤ := ((i : ℤ) - 100, 100 - (j : ℤ))

/-- `100 · z²` at grid point `(j, i)` of the test grid. -/
def gZ2 (j i : ℕ) : ℤ × ℤ :=
  (((i : ℤ) - 100) ^ 2 - (100 - (j : ℤ)) ^ 2, 2 * ((i : ℤ) - 100) * (100 - (j : ℤ)))

/-- `1000 · (z³ - 1)` at grid point `(j, i)` of the test grid. -/
def gZ3 (j i : ℕ) : ℤ × ℤ :=
  (((i : ℤ) - 100) ^ 3 - 3 * ((i : ℤ) - 100) * (100 - (j : ℤ)) ^ 2 - 1000,
   3 * ((i : ℤ) - 100) ^ 2 * (100 - (j : ℤ)) - (100 - (j : ℤ)) ^ 3)

open Complex in
theorem funcGrid_id_eq (j i : ℕ) :
    funcGrid (fun z => z) (-10, 10) (-10, 10) (1/10) j i =
      ((1/10 : ℝ) : ℂ) * zOf (gZ1 j i) := by
  unfold funcGrid zOf gZ1
  apply Complex.ext <;> simp <;> push_cast <;> ring

open Complex in
theorem funcGrid_sq_eq (j i : ℕ) :
    funcGrid (fun z => z ^ 2) (-10, 10) (-10, 10) (1/10) j i =
      ((1/100 : ℝ) : ℂ) * zOf (gZ2 j i) := by
  unfold funcGrid zOf gZ2
  rw [Complex.ext_iff]
  constructor <;>
    simp [pow_succ, Complex.mul_re, Complex.mul_im, Complex.add_re, Complex.add_im,
      Complex.sub_re, Complex.sub_im] <;> push_cast <;> ring

open Complex in
theorem funcGrid_cube_eq (j i : ℕ) :
    funcGrid (fun z => z ^ 3 - 1) (-10, 10) (-10, 10) (1/10) j i =
      ((1/1000 : ℝ) : ℂ) * zOf (gZ3 j i) := by
  unfold funcGrid zOf gZ3
  rw [Complex.ext_iff]
  constructor <;>
    simp [pow_succ, Complex.mul_re, Complex.mul_im, Complex.add_re, Complex.add_im,
      Complex.sub_re, Complex.sub_im] <;> push_cast <;> ring

theorem windingNum_grid_id (x1 y1 x2 y2 : ℕ) (hx : x1 ≤ x2) (hy : y1 ≤ y2) :
    windingNum (fun j i => colorsHue (funcGrid (fun z => z) (-10, 10) (-10, 10) (1/10) j i))
      ((x1, y1), (x2, y2)) = netWrap gZ1 x1 y1 x2 y2 := by
  apply windingNum_eq_netWrap _ _ _ _ _ _ hx hy <;> intro j i <;>
    rw [funcGrid_id_eq, colorsHue_real_mul (1/10) (by norm_num)]
  · exact colorsHue_gt_iff_hueGtB (gZ1 j i)
  · exact colorsHue_lt_iff_hueLtB (gZ1 j i)

theorem windingNum_grid_sq (x1 y1 x2 y2 : ℕ) (hx : x1 ≤ x2) (hy : y1 ≤ y2) :
    windingNum (fun j i => colorsHue (funcGrid (fun z => z ^ 2) (-10, 10) (-10, 10) (1/10) j i))
      ((x1, y1), (x2, y2)) = netWrap gZ2 x1 y1 x2 y2 := by
  apply windingNum_eq_netWrap _ _ _ _ _ _ hx hy <;> intro j i <;>
    rw [funcGrid_sq_eq, colorsHue_real_mul (1/100) (by norm_num)]
  · exact colorsHue_gt_iff_hueGtB (gZ2 j i)
  · exact colorsHue_lt_iff_hueLtB (gZ2 j i)

theorem windingNum_grid_cube (x1 y1 x2 y2 : ℕ) (hx : x1 ≤ x2) (hy : y1 ≤ y2) :
    windingNum (fun j i => colorsHue (funcGrid (fun z => z ^ 3 - 1) (-10, 10) (-10, 10) (1/10) j i))
      ((x1, y1), (x2, y2)) = netWrap gZ3 x1 y1 x2 y2 := by
  apply windingNum_eq_netWrap _ _ _ _ _ _ hx hy <;> intro j i <;>
    rw [funcGrid_cube_eq, colorsHue_real_mul (1/1000) (by norm_num)]
  · exact colorsHue_gt_iff_hueGtB (gZ3 j i)
  · exact colorsHue_lt_iff_hueLtB (gZ3 j i)

set_option maxRecDepth 100000 in
theorem netWrap_gZ1_full : netWrap gZ1 0 0 200 200 = 1 := by decide

set_option maxRecDepth 100000 in
theorem netWrap_gZ2_full : netWrap gZ2 0 0 200 200 = 2 := by decide

set_option maxRecDepth 100000 in
theorem netWrap_gZ3_full : netWrap gZ3 0 0 200 200 = 3 := by decide

set_option maxRecDepth 100000 in
theorem netWrap_gZ3_half : netWrap gZ3 100 0 200 200 = 1 := by decide

/-- Instrumentation of the recursion of `_calc_zeros`:
`WindingCall hue r r'` holds when running `_calc_zeros` on rectangle `r`
invokes `winding_num` on rectangle `r'`.  `winding_num` is invoked
exactly on non-base-case rectangles, and recursion continues into the
two halves only when the computed winding number is nonzero; the split
points mirror `calcZeros` (the brightness field and `tol` play no role
in the branching). -/
inductive WindingCall (hue : ℕ → ℕ → α) :
    (ℕ × ℕ) × (ℕ × ℕ) → (ℕ × ℕ) × (ℕ × ℕ) → Prop where
  | here (x1 y1 x2 y2 : ℕ) (hBase : ¬(y2 - y1 ≤ 3 ∧ x2 - x1 ≤ 3)) :
      WindingCall hue ((x1, y1), (x2, y2)) ((x1, y1), (x2, y2))
  | splitXLeft (x1 y1 x2 y2 : ℕ) (r : (ℕ × ℕ) × (ℕ × ℕ))
      (hBase : ¬(y2 - y1 ≤ 3 ∧ x2 - x1 ≤ 3))
      (hw : windingNum hue ((x1, y1), (x2, y2)) ≠ 0)
      (hDir : y2 - y1 < x2 - x1)
      (h : WindingCall hue ((x1, y1), ((x1 + x2 + 1) / 2, y2)) r) :
      WindingCall hue ((x1, y1), (x2, y2)) r
  | splitXRight (x1 y1 x2 y2 : ℕ) (r : (ℕ × ℕ) × (ℕ × ℕ))
      (hBase : ¬(y2 - y1 ≤ 3 ∧ x2 - x1 ≤ 3))
      (hw : windingNum hue ((x1, y1), (x2, y2)) ≠ 0)
      (hDir : y2 - y1 < x2 - x1)
      (h : WindingCall hue (((x1 + x2 + 1) / 2, y1), (x2, y2)) r) :
      WindingCall hue ((x1, y1), (x2, y2)) r
  | splitYLow (x1 y1 x2 y2 : ℕ) (r : (ℕ × ℕ) × (ℕ × ℕ))
      (hBase : ¬(y2 - y1 ≤ 3 ∧ x2 - x1 ≤ 3))
      (hw : windingNum hue ((x1, y1), (x2, y2)) ≠ 0)
      (hDir : ¬(y2 - y1 < x2 - x1))
      (h : WindingCall hue ((x1, y1), (x2, (y1 + y2 + 1) / 2)) r) :
      WindingCall hue ((x1, y1), (x2, y2)) r
  | splitYHigh (x1 y1 x2 y2 : ℕ) (r : (ℕ × ℕ) × (ℕ × ℕ))
      (hBase : ¬(y2 - y1 ≤ 3 ∧ x2 - x1 ≤ 3))
      (hw : windingNum hue ((x1, y1), (x2, y2)) ≠ 0)
      (hDir : ¬(y2 - y1 < x2 - x1))
      (h : WindingCall hue ((x1, (y1 + y2 + 1) / 2), (x2, y2)) r) :
      WindingCall hue ((x1, y1), (x2, y2)) r

/-- Soundness invariant of `_calc_zeros`: on an ordered rectangle, every
recorded coordinate has brightness below `tol` and lies within the
rectangle (boundary included). -/
theorem calcZeros_sound (hue value : ℕ → ℕ → α) (tol : α) (r : (ℕ × ℕ) × (ℕ × ℕ)) :
    r.1.1 ≤ r.2.1 → r.1.2 ≤ r.2.2 → ∀ p ∈ calcZeros hue value tol r,
      value p.2 p.1 < tol ∧ r.1.1 ≤ p.1 ∧ p.1 ≤ r.2.1 ∧ r.1.2 ≤ p.2 ∧ p.2 ≤ r.2.2 := by
  induction r using calcZeros.induct hue value tol with
  | case1 x1 y1 x2 y2 hBase =>
    intro hx hy p hp
    dsimp only at hx hy ⊢
    rw [calcZeros, dif_pos hBase] at hp
    simp only [Finset.mem_filter, Finset.mem_product, Finset.mem_Ico] at hp
    exact ⟨hp.2, by omega, by omega, by omega, by omega⟩
  | case2 x1 y1 x2 y2 hBase hw =>
    intro hx hy p hp
    dsimp only at hx hy ⊢
    rw [calcZeros, dif_neg hBase, if_pos hw] at hp
    simp only [Finset.mem_union, Finset.mem_image, Finset.mem_filter, Finset.mem_Ico] at hp
    rcases hp with ((⟨i, ⟨hi, hv⟩, rfl⟩ | ⟨i, ⟨hi, hv⟩, rfl⟩) | ⟨j, ⟨hj, hv⟩, rfl⟩) |
      ⟨j, ⟨hj, hv⟩, rfl⟩ <;>
      exact ⟨hv, by omega, by omega, by omega, by omega⟩
  | case3 x1 y1 x2 y2 hBase hw hDir ih1 ih2 =>
    intro hx hy p hp
    dsimp only at hx hy ⊢
    rw [calcZeros, dif_neg hBase, if_neg hw, dif_pos hDir] at hp
    rcases Finset.mem_union.mp hp with hp1 | hp1
    · have := ih1 (by dsimp only; omega) (by dsimp only; omega) p hp1
      dsimp only at this ⊢
      exact ⟨this.1, by omega, by omega, by omega, by omega⟩
    · have := ih2 (by dsimp only; omega) (by dsimp only; omega) p hp1
      dsimp only at this ⊢
      exact ⟨this.1, by omega, by omega, by omega, by omega⟩
  | case4 x1 y1 x2 y2 hBase hw hDir ih1 ih2 =>
    intro hx hy p hp
    dsimp only at hx hy ⊢
    rw [calcZeros, dif_neg hBase, if_neg hw, dif_neg hDir] at hp
    rcases Finset.mem_union.mp hp with hp1 | hp1
    · have := ih1 (by dsimp only; omega) (by dsimp only; omega) p hp1
      dsimp only at this ⊢
      exact ⟨this.1, by omega, by omega, by omega, by omega⟩
    · have := ih2 (by dsimp only; omega) (by dsimp only; omega) p hp1
      dsimp only at this ⊢
      exact ⟨this.1, by omega, by omega, by omega, by omega⟩

/-- The starting rectangle of `zeros` is always ordered componentwise. -/
theorem startRect_ordered (rows cols : ℕ) (rect : Option ((ℕ × ℕ) × (ℕ × ℕ))) :
    (startRect rows cols rect).1.1 ≤ (startRect rows cols rect).2.1 ∧
    (startRect rows cols rect).1.2 ≤ (startRect rows cols rect).2.2 := by
  rcases rect with - | r
  · exact ⟨Nat.zero_le _, Nat.zero_le _⟩
  · unfold startRect
    dsimp only
    split_ifs <;> omega

/-- A successful `_brightness` walk makes at least one step. -/
theorem brightnessAux_succ_ge (value : ℕ → ℕ → α) (rows cols : ℕ) (lv : α)
    (xVal maxVal : Bool) (res : ℕ) : ∀ (x y : ℤ) (diff : ℕ),
    brightnessAux value rows cols lv xVal maxVal x y diff = some res →
    diff + 1 ≤ res := by
  intro x y diff
  induction x, y, diff using brightnessAux.induct value rows cols lv xVal maxVal with
  | case1 x y diff hIn next hNeg =>
    intro h
    rw [brightnessAux.eq_def, dif_pos hIn] at h
    dsimp only at h hNeg
    rw [if_pos hNeg] at h
    exact absurd h (by simp)
  | case2 x y diff hIn light next hNeg hLight ih =>
    intro h
    rw [brightnessAux.eq_def, dif_pos hIn] at h
    dsimp only at h hNeg hLight ih
    rw [if_neg hNeg, if_pos hLight] at h
    have := ih h
    omega
  | case3 x y diff hIn light next hNeg hLight =>
    intro h
    rw [brightnessAux.eq_def, dif_pos hIn] at h
    dsimp only at h hNeg hLight
    rw [if_neg hNeg, if_neg hLight, Option.some_inj] at h
    omega
  | case4 x y diff hIn =>
    intro h
    rw [brightnessAux.eq_def, dif_neg hIn] at h
    exact absurd h (by simp)

/-- A successful min-direction walk along `x` took at most `x` steps
(the explicit negativity check fires otherwise). -/
theorem brightnessAux_min_x_bound (value : ℕ → ℕ → α) (rows cols : ℕ) (lv : α)
    (res : ℕ) : ∀ (x y : ℤ) (diff : ℕ),
    brightnessAux value rows cols lv true false x y diff = some res →
    (res : ℤ) - diff ≤ x := by
  intro x y diff
  induction x, y, diff using brightnessAux.induct value rows cols lv true false with
  | case1 x y diff hIn next hNeg =>
    intro h
    rw [brightnessAux, dif_pos hIn] at h
    dsimp only at h hNeg
    rw [if_pos hNeg] at h
    exact absurd h (by simp)
  | case2 x y diff hIn light next hNeg hLight ih =>
    intro h
    rw [brightnessAux, dif_pos hIn] at h
    dsimp only at h hNeg hLight ih
    rw [if_neg hNeg, if_pos hLight] at h
    have := ih h
    omega
  | case3 x y diff hIn light next hNeg hLight =>
    intro h
    rw [brightnessAux, dif_pos hIn] at h
    dsimp only at h hNeg hLight
    rw [if_neg hNeg, if_neg hLight, Option.some_inj] at h
    omega
  | case4 x y diff hIn =>
    intro h
    rw [brightnessAux, dif_neg hIn] at h
    exact absurd h (by simp)

/-- A successful min-direction walk along `y` took at most `y` steps. -/
theorem brightnessAux_min_y_bound (value : ℕ → ℕ → α) (rows cols : ℕ) (lv : α)
    (res : ℕ) : ∀ (x y : ℤ) (diff : ℕ),
    brightnessAux value rows cols lv false false x y diff = some res →
    (res : ℤ) - diff ≤ y := by
  intro x y diff
  induction x, y, diff using brightnessAux.induct value rows cols lv false false with
  | case1 x y diff hIn next hNeg =>
    intro h
    rw [brightnessAux, dif_pos hIn] at h
    dsimp only at h hNeg
    rw [if_pos hNeg] at h
    exact absurd h (by simp)
  | case2 x y diff hIn light next hNeg hLight ih =>
    intro h
    rw [brightnessAux, dif_pos hIn] at h
    dsimp only at h hNeg hLight ih
    rw [if_neg hNeg, if_pos hLight] at h
    have := ih h
    omega
  | case3 x y diff hIn light next hNeg hLight =>
    intro h
    rw [brightnessAux, dif_pos hIn] at h
    dsimp only at h hNeg hLight
    rw [if_neg hNeg, if_neg hLight, Option.some_inj] at h
    omega
  | case4 x y diff hIn =>
    intro h
    rw [brightnessAux, dif_neg hIn] at h
    exact absurd h (by simp)

/-- A successful max-direction walk along `x` took at most `cols - x`
steps (every read position must be inside the array). -/
theorem brightnessAux_max_x_bound (value : ℕ → ℕ → α) (rows cols : ℕ) (lv : α)
    (res : ℕ) : ∀ (x y : ℤ) (diff : ℕ),
    brightnessAux value rows cols lv true true x y diff = some res →
    (res : ℤ) - diff ≤ (cols : ℤ) - x := by
  intro x y diff
  induction x, y, diff using brightnessAux.induct value rows cols lv true true with
  | case1 x y diff hIn next hNeg =>
    intro h
    rw [brightnessAux, dif_pos hIn] at h
    dsimp only at h hNeg
    rw [if_pos hNeg] at h
    exact absurd h (by simp)
  | case2 x y diff hIn light next hNeg hLight ih =>
    intro h
    rw [brightnessAux, dif_pos hIn] at h
    dsimp only at h hNeg hLight ih
    rw [if_neg hNeg, if_pos hLight] at h
    have := ih h
    omega
  | case3 x y diff hIn light next hNeg hLight =>
    intro h
    rw [brightnessAux, dif_pos hIn] at h
    dsimp only at h hNeg hLight
    rw [if_neg hNeg, if_neg hLight, Option.some_inj] at h
    unfold pyWrapIdx at hIn
    split_ifs at hIn <;> omega
  | case4 x y diff hIn =>
    intro h
    rw [brightnessAux, dif_neg hIn] at h
    exact absurd h (by simp)

/-- A successful max-direction walk along `y` took at most `rows - y`
steps. -/
theorem brightnessAux_max_y_bound (value : ℕ → ℕ → α) (rows cols : ℕ) (lv : α)
    (res : ℕ) : ∀ (x y : ℤ) (diff : ℕ),
    brightnessAux value rows cols lv false true x y diff = some res →
    (res : ℤ) - diff ≤ (rows : ℤ) - y := by
  intro x y diff
  induction x, y, diff using brightnessAux.induct value rows cols lv false true with
  | case1 x y diff hIn next hNeg =>
    intro h
    rw [brightnessAux, dif_pos hIn] at h
    dsimp only at h hNeg
    rw [if_pos hNeg] at h
    exact absurd h (by simp)
  | case2 x y diff hIn light next hNeg hLight ih =>
    intro h
    rw [brightnessAux, dif_pos hIn] at h
    dsimp only at h hNeg hLight ih
    rw [if_neg hNeg, if_pos hLight] at h
    have := ih h
    omega
  | case3 x y diff hIn light next hNeg hLight =>
    intro h
    rw [brightnessAux, dif_pos hIn] at h
    dsimp only at h hNeg hLight
    rw [if_neg hNeg, if_neg hLight, Option.some_inj] at h
    unfold pyWrapIdx at hIn
    split_ifs at hIn <;> omega
  | case4 x y diff hIn =>
    intro h
    rw [brightnessAux, dif_neg hIn] at h
    exact absurd h (by simp)

/-- Bounds for a successful `_brightness` call with a positive
threshold: the step count is at least 1 and bounded by the distance to
the grid edge in the walk direction. -/
theorem brightness_min_x_bound (value : ℕ → ℕ → α) (rows cols : ℕ) (x y : ℤ)
    (lv : α) (hlv : 0 < lv) (d : ℕ)
    (h : brightness value rows cols x y lv true false = some d) :
    1 ≤ d ∧ (d : ℤ) ≤ x := by
  unfold brightness at h
  rw [if_pos hlv] at h
  refine ⟨brightnessAux_succ_ge value rows cols lv true false d x y 0 h, ?_⟩
  have := brightnessAux_min_x_bound value rows cols lv d x y 0 h
  omega

theorem brightness_min_y_bound (value : ℕ → ℕ → α) (rows cols : ℕ) (x y : ℤ)
    (lv : α) (hlv : 0 < lv) (d : ℕ)
    (h : brightness value rows cols x y lv false false = some d) :
    1 ≤ d ∧ (d : ℤ) ≤ y := by
  unfold brightness at h
  rw [if_pos hlv] at h
  refine ⟨brightnessAux_succ_ge value rows cols lv false false d x y 0 h, ?_⟩
  have := brightnessAux_min_y_bound value rows cols lv d x y 0 h
  omega

theorem brightness_max_x_bound (value : ℕ → ℕ → α) (rows cols : ℕ) (x y : ℤ)
    (lv : α) (hlv : 0 < lv) (d : ℕ)
    (h : brightness value rows cols x y lv true true = some d) :
    1 ≤ d ∧ (d : ℤ) ≤ (cols : ℤ) - x := by
  unfold brightness at h
  rw [if_pos hlv] at h
  refine ⟨brightnessAux_succ_ge value rows cols lv true true d x y 0 h, ?_⟩
  have := brightnessAux_max_x_bound value rows cols lv d x y 0 h
  omega

theorem brightness_max_y_bound (value : ℕ → ℕ → α) (rows cols : ℕ) (x y : ℤ)
    (lv : α) (hlv : 0 < lv) (d : ℕ)
    (h : brightness value rows cols x y lv false true = some d) :
    1 ≤ d ∧ (d : ℤ) ≤ (rows : ℤ) - y := by
  unfold brightness at h
  rw [if_pos hlv] at h
  refine ⟨brightnessAux_succ_ge value rows cols lv false true d x y 0 h, ?_⟩
  have := brightnessAux_max_y_bound value rows cols lv d x y 0 h
  omega

/-- Concrete 4×4 brightness grid used for the zoom witnesses: dark at
`(2,2)`, bright at its four neighbours. -/
def zoomGrid : ℕ → ℕ → ℚ := fun r c =>
  if (r = 2 ∧ c = 1) ∨ (r = 1 ∧ c = 2) ∨ (r = 2 ∧ c = 3) ∨ (r = 3 ∧ c = 2) then 1 else 0

theorem zoomGrid_walk_min_x :
    brightness zoomGrid 4 4 2 2 (19/20 : ℚ) true false = some 2 := by
  unfold brightness
  rw [if_pos (by norm_num)]
  simp [brightnessAux.eq_def, pyWrapIdx, zoomGrid]
  norm_num

theorem zoomGrid_walk_min_y :
    brightness zoomGrid 4 4 2 2 (19/20 : ℚ) false false = some 2 := by
  unfold brightness
  rw [if_pos (by norm_num)]
  simp [brightnessAux.eq_def, pyWrapIdx, zoomGrid]
  norm_num

theorem zoomGrid_walk_max_x :
    brightness zoomGrid 4 4 2 2 (19/20 : ℚ) true true = some 2 := by
  unfold brightness
  rw [if_pos (by norm_num)]
  simp [brightnessAux.eq_def, pyWrapIdx, zoomGrid]
  norm_num

theorem zoomGrid_walk_max_y :
    brightness zoomGrid 4 4 2 2 (19/20 : ℚ) false true = some 2 := by
  unfold brightness
  rw [if_pos (by norm_num)]
  simp [brightnessAux.eq_def, pyWrapIdx, zoomGrid]
  norm_num

theorem zoomGrid_eval :
    zoomFitZero zoomGrid 4 4 [(2, 2)] ((0:ℚ), 3) ((0:ℚ), 3) 1 (19/20) =
      some ((1, 3), (1, 3), 2/3) := by
  unfold zoomFitZero zoomBox brightness
  simp only [List.foldl]
  rw [if_pos (by norm_num), if_pos (by norm_num), if_pos (by norm_num), if_pos (by norm_num)]
  simp [brightnessAux.eq_def, pyWrapIdx, zoomGrid]
  norm_num

/-!
## Claims
-/

/-- C1, counterexample: the claim assigns the forward wrap `1 + val1 - val2`
to the case `val1 > 0.7 ∧ val2 < 0.3` (next above the upper threshold,
previous below the lower one).  At `val1 = 4/5`, `val2 = 1/10` the code
takes the backward branch and returns `-1 + 4/5 - 1/10 = -3/10`, not the
claimed `1 + 4/5 - 1/10 = 17/10`. -/
theorem claim_C1_counterexample :
    (4:ℚ)/5 > 7/10 ∧ (1:ℚ)/10 < 3/10 ∧
    windingPath ((4:ℚ)/5) ((1:ℚ)/10) = -(3/10) ∧
    windingPath ((4:ℚ)/5) ((1:ℚ)/10) ≠ 1 + 4/5 - 1/10 := by
  refine ⟨by norm_num, by norm_num, by norm_num [windingPath], by norm_num [windingPath]⟩

/-- C1, amended: for every adjacent pair `(val2 → val1)` walked by
`winding_num`, the signed delta is `1 + val1 - val2` when the PREVIOUS
value `val2` exceeds 0.7 and the NEXT value `val1` is below 0.3 (forward
wrap through 0); `-1 + val1 - val2` in the symmetric backward case
(`val2 < 0.3` and `val1 > 0.7`); and the plain difference `val1 - val2`
otherwise. -/
theorem claim_C1_winding_path_delta (val1 val2 : α) :
    windingPath val1 val2 =
      if val2 > 7/10 ∧ val1 < 3/10 then 1 + val1 - val2
      else if val2 < 3/10 ∧ val1 > 7/10 then -1 + val1 - val2
      else val1 - val2 := by
  rw [windingPath_eq_sub_add_wrapInd]
  unfold wrapInd
  split_ifs <;> push_cast <;> ring

/-- C2: on the 201×201 grid with `re_range = im_range = (-10, 10)` and
`step = 0.1`, the winding number over the full rectangle
`[(0,0),(200,200)]` is `1` for `f(z) = z`, `2` for `f(z) = z²` and `3`
for `f(z) = z³ - 1`; over `[(100,0),(200,200)]` (enclosing only the real
root `z = 1`) it is `1` for `f(z) = z³ - 1`. -/
theorem claim_C2_winding_values :
    windingNum (fun j i => colorsHue (funcGrid (fun z => z) (-10, 10) (-10, 10) (1/10) j i))
      ((0, 0), (200, 200)) = 1 ∧
    windingNum (fun j i => colorsHue (funcGrid (fun z => z ^ 2) (-10, 10) (-10, 10) (1/10) j i))
      ((0, 0), (200, 200)) = 2 ∧
    windingNum (fun j i => colorsHue (funcGrid (fun z => z ^ 3 - 1) (-10, 10) (-10, 10) (1/10) j i))
      ((0, 0), (200, 200)) = 3 ∧
    windingNum (fun j i => colorsHue (funcGrid (fun z => z ^ 3 - 1) (-10, 10) (-10, 10) (1/10) j i))
      ((100, 0), (200, 200)) = 1 := by
  refine ⟨?_, ?_, ?_, ?_⟩
  · rw [windingNum_grid_id 0 0 200 200 (by norm_num) (by norm_num)]
    exact netWrap_gZ1_full
  · rw [windingNum_grid_sq 0 0 200 200 (by norm_num) (by norm_num)]
    exact netWrap_gZ2_full
  · rw [windingNum_grid_cube 0 0 200 200 (by norm_num) (by norm_num)]
    exact netWrap_gZ3_full
  · rw [windingNum_grid_cube 100 0 200 200 (by norm_num) (by norm_num)]
    exact netWrap_gZ3_half

/-- C3, counterexample: in the base case the scan runs over
`range(x1, x2) × range(y1, y2)`, which EXCLUDES the right column `x2`
and the bottom row `y2`.  On the all-dark 3×3-span rectangle
`[(0,0),(2,2)]` the boundary point `(2,2)` has brightness below the
tolerance yet is not recorded. -/
theorem claim_C3_counterexample :
    ((2:ℕ) - 0 ≤ 3 ∧ (2:ℕ) - 0 ≤ 3) ∧
    (fun (_ _ : ℕ) => (0:ℚ)) 2 2 < 1 ∧
    (2, 2) ∉ calcZeros (fun _ _ => (0:ℚ)) (fun _ _ => (0:ℚ)) 1 ((0, 0), (2, 2)) := by
  refine ⟨by norm_num, by norm_num, ?_⟩
  rw [calcZeros]
  norm_num

/-- C3, amended: when `_calc_zeros` reaches a rectangle with both spans
at most 3, the result is exactly the set of points `(i, j)` with
`x1 ≤ i < x2`, `y1 ≤ j < y2` (the right column and bottom row excluded)
whose brightness is below `tol`. -/
theorem claim_C3_base_case_scan (hue value : ℕ → ℕ → α) (tol : α) (x1 y1 x2 y2 : ℕ)
    (hy : y2 - y1 ≤ 3) (hx : x2 - x1 ≤ 3) (p : ℕ × ℕ) :
    p ∈ calcZeros hue value tol ((x1, y1), (x2, y2)) ↔
      (x1 ≤ p.1 ∧ p.1 < x2 ∧ y1 ≤ p.2 ∧ p.2 < y2 ∧ value p.2 p.1 < tol) := by
  rw [calcZeros]
  rw [dif_pos ⟨hy, hx⟩]
  simp only [Finset.mem_filter, Finset.mem_product, Finset.mem_Ico]
  tauto

/-- C3, witness for the amended theorem at a concrete base-case
rectangle. -/
theorem claim_C3_base_case_scan_witness :
    ((2:ℕ) - 0 ≤ 3) ∧ ((3:ℕ) - 1 ≤ 3) ∧
    ((1, 1) ∈ calcZeros (fun _ _ => (0:ℚ)) (fun _ _ => (0:ℚ)) 1 ((1, 0), (3, 2)) ↔
      (1 ≤ 1 ∧ 1 < 3 ∧ 0 ≤ 1 ∧ 1 < 2 ∧ (fun (_ _ : ℕ) => (0:ℚ)) 1 1 < 1)) :=
  ⟨by norm_num, by norm_num,
   claim_C3_base_case_scan (fun _ _ => (0:ℚ)) (fun _ _ => (0:ℚ)) 1 1 0 3 2
     (by norm_num) (by norm_num) (1, 1)⟩

/-- C5: every returned root value is positionally computed from its
index pair by `re = re_range[0] + col·step`, `im = im_range[0] +
row·step`, with `step = (re_range[1] - re_range[0])/(rows - 1)` derived
from the real-axis range and the row count and applied to both axes,
regardless of the width spanned by `im_range`. -/
theorem claim_C5_zeros_value_formula (hue value : ℕ → ℕ → α) (rows cols : ℕ)
    (reRange imRange : α × α) (rect : Option ((ℕ × ℕ) × (ℕ × ℕ))) (tol : α)
    (out : List (α × α) × List (ℕ × ℕ))
    (h : zeros hue value rows cols reRange imRange rect tol = some out) :
    out.1 = out.2.map (fun p =>
      (reRange.1 + (p.1 : α) * ((reRange.2 - reRange.1) / (((rows : ℤ) - 1 : ℤ) : α)),
       imRange.1 + (p.2 : α) * ((reRange.2 - reRange.1) / (((rows : ℤ) - 1 : ℤ) : α)))) := by
  unfold zeros at h
  split_ifs at h
  rw [Option.some_inj] at h
  rw [← h]
  rfl

/-- Concrete evaluation shared by the witnesses: `zeros` on a 2×2
all-dark grid finds the single root index `(0, 0)`. -/
theorem zeros_dark_2x2 :
    zeros (fun _ _ => (0:ℚ)) (fun _ _ => (0:ℚ)) 2 2 (0, 1) (0, 1) none 1 =
      some ([(0, 0)], [(0, 0)]) := by
  have hset : calcZeros (fun _ _ => (0:ℚ)) (fun _ _ => (0:ℚ)) 1
      (startRect 2 2 none) = {(0, 0)} := by
    rw [startRect, calcZeros]
    norm_num
  unfold zeros
  rw [hset]
  norm_num [indexEnum, zerosStep]

theorem claim_C5_zeros_value_formula_witness :
    zeros (fun _ _ => (0:ℚ)) (fun _ _ => (0:ℚ)) 2 2 (0, 1) (0, 1) none 1 =
      some ([(0, 0)], [(0, 0)]) ∧
    ([((0:ℚ), (0:ℚ))] = [((0:ℕ), (0:ℕ))].map (fun p =>
      ((0:ℚ) + (p.1 : ℚ) * (((1:ℚ) - 0) / ((((2:ℕ) : ℤ) - 1 : ℤ) : ℚ)),
       (0:ℚ) + (p.2 : ℚ) * (((1:ℚ) - 0) / ((((2:ℕ) : ℤ) - 1 : ℤ) : ℚ))))) := by
  refine ⟨zeros_dark_2x2, ?_⟩
  exact claim_C5_zeros_value_formula (fun _ _ => (0:ℚ)) (fun _ _ => (0:ℚ)) 2 2
    (0, 1) (0, 1) none 1 ([(0, 0)], [(0, 0)]) zeros_dark_2x2

/-- C7: `has_branch_cut` returns `False` for every hue and brightness
field whenever neither axis crosses zero within the sampled window —
the quantification over all fields shows no sample is probed. -/
theorem claim_C7_branch_cut_out_of_range (hue value : ℕ → ℕ → α) (rows cols : ℕ)
    (reRange imRange : α × α) (step : α)
    (h1 : ¬(imRange.1 < 0 ∧ 0 < imRange.2)) (h2 : ¬(reRange.1 < 0 ∧ 0 < reRange.2)) :
    branchCut hue value rows cols reRange imRange step = false := by
  unfold branchCut
  rw [if_pos (not_or.mpr ⟨h1, h2⟩)]

/-- C7, witness: the window `re_range = im_range = (1, 21)` excludes both
axes, so `branch_cut` returns `False` on an arbitrary field. -/
theorem claim_C7_branch_cut_out_of_range_witness :
    ¬((1:ℚ) < 0 ∧ (0:ℚ) < 21) ∧
    branchCut (fun _ _ => (0:ℚ)) (fun _ _ => (0:ℚ)) 401 401 (1, 21) (1, 21) (1/20) = false :=
  ⟨by norm_num,
   claim_C7_branch_cut_out_of_range (fun _ _ => (0:ℚ)) (fun _ _ => (0:ℚ)) 401 401
     (1, 21) (1, 21) (1/20) (by norm_num) (by norm_num)⟩

/-- C9: starting from any rectangle with span at least 1 in both axes,
every rectangle on which the `find_zeros` recursion invokes
`winding_number` also has span at least 1 in both axes: the base-case
threshold 3 together with the ceiling-midpoint bisection never produces
a degenerate sub-rectangle. -/
theorem claim_C9_winding_never_degenerate (hue : ℕ → ℕ → α)
    (r r' : (ℕ × ℕ) × (ℕ × ℕ)) (hc : WindingCall hue r r')
    (hx : 1 ≤ r.2.1 - r.1.1) (hy : 1 ≤ r.2.2 - r.1.2) :
    1 ≤ r'.2.1 - r'.1.1 ∧ 1 ≤ r'.2.2 - r'.1.2 := by
  revert hx hy
  induction hc with
  | here x1 y1 x2 y2 hBase =>
    intro hx hy
    exact ⟨hx, hy⟩
  | splitXLeft x1 y1 x2 y2 r hBase hw hDir h ih =>
    intro hx hy
    dsimp only at hx hy
    exact ih (by dsimp only; omega) (by dsimp only; omega)
  | splitXRight x1 y1 x2 y2 r hBase hw hDir h ih =>
    intro hx hy
    dsimp only at hx hy
    exact ih (by dsimp only; omega) (by dsimp only; omega)
  | splitYLow x1 y1 x2 y2 r hBase hw hDir h ih =>
    intro hx hy
    dsimp only at hx hy
    exact ih (by dsimp only; omega) (by dsimp only; omega)
  | splitYHigh x1 y1 x2 y2 r hBase hw hDir h ih =>
    intro hx hy
    dsimp only at hx hy
    exact ih (by dsimp only; omega) (by dsimp only; omega)

/-- C9, witness: the rectangle `[(0,0),(4,1)]` has spans `(4, 1)`, is not
a base case, so `winding_num` is invoked on it, and its spans are at
least 1. -/
theorem claim_C9_winding_never_degenerate_witness :
    WindingCall (fun _ _ => (0:ℚ)) ((0, 0), (4, 1)) ((0, 0), (4, 1)) ∧
    (1 ≤ 4 - 0 ∧ 1 ≤ 1 - 0) := by
  have hc : WindingCall (fun _ _ => (0:ℚ)) ((0, 0), (4, 1)) ((0, 0), (4, 1)) :=
    WindingCall.here 0 0 4 1 (by norm_num)
  exact ⟨hc, claim_C9_winding_never_degenerate (fun _ _ => (0:ℚ)) _ _ hc
    (by norm_num) (by norm_num)⟩

/-- C10: every index pair in the list returned by `find_zeros` has
brightness below `tol` and lies within the (normalized) searched
rectangle's bounds. -/
theorem claim_C10_zeros_membership_sound (hue value : ℕ → ℕ → α) (rows cols : ℕ)
    (reRange imRange : α × α) (rect : Option ((ℕ × ℕ) × (ℕ × ℕ))) (tol : α)
    (out : List (α × α) × List (ℕ × ℕ))
    (h : zeros hue value rows cols reRange imRange rect tol = some out)
    (p : ℕ × ℕ) (hp : p ∈ out.2) :
    value p.2 p.1 < tol ∧
    (startRect rows cols rect).1.1 ≤ p.1 ∧ p.1 ≤ (startRect rows cols rect).2.1 ∧
    (startRect rows cols rect).1.2 ≤ p.2 ∧ p.2 ≤ (startRect rows cols rect).2.2 := by
  unfold zeros at h
  split_ifs at h
  rw [Option.some_inj] at h
  rw [← h] at hp
  have hmem : p ∈ calcZeros hue value tol (startRect rows cols rect) := by
    have := hp
    unfold indexEnum at this
    exact (Finset.mem_sort idxLe).mp this
  exact calcZeros_sound hue value tol (startRect rows cols rect)
    (startRect_ordered rows cols rect).1 (startRect_ordered rows cols rect).2 p hmem

/-- C10, witness: on the 2×2 all-dark grid the returned index `(0, 0)`
has brightness below the tolerance and lies in the default whole-grid
rectangle. -/
theorem claim_C10_zeros_membership_sound_witness :
    (fun (_ _ : ℕ) => (0:ℚ)) 0 0 < 1 ∧
    (startRect 2 2 none).1.1 ≤ 0 ∧ (0:ℕ) ≤ (startRect 2 2 none).2.1 ∧
    (startRect 2 2 none).1.2 ≤ 0 ∧ (0:ℕ) ≤ (startRect 2 2 none).2.2 :=
  claim_C10_zeros_membership_sound (fun _ _ => (0:ℚ)) (fun _ _ => (0:ℚ)) 2 2
    (0, 1) (0, 1) none 1 ([(0, 0)], [(0, 0)]) zeros_dark_2x2 (0, 0) (by norm_num)

open Real Complex in
/-- C8: for every complex sample, `encode_colors` returns the hue
`((angle(z) + 2π) mod 2π) / (2π)` and the brightness `(2/π)·atan(|z|)`
(both applied pointwise, so shape is preserved), with hue in `[0, 1)`
and brightness in `[0, 1)`. -/
theorem claim_C8_colors_encoding (z : ℂ) :
    colors z = (realMod (arg z + 2 * π) (2 * π) / (2 * π),
                2 / π * Real.arctan (Complex.abs z)) ∧
    0 ≤ (colors z).1 ∧ (colors z).1 < 1 ∧ 0 ≤ (colors z).2 ∧ (colors z).2 < 1 :=
  ⟨rfl, colorsHue_nonneg z, colorsHue_lt_one z, colorsValue_nonneg z, colorsValue_lt_one z⟩

/-- C4, counterexample: the claim asserts a STRICT shrink
`new_hi < old_hi` whenever the index list is non-empty and all four
brightness walks succeed.  On `zoomGrid` with index `(2,2)` all four
walks succeed with 2 steps, yet the returned upper bounds equal the old
ones (`3`), because the max-direction walks reach the light threshold
exactly at the last column/row. -/
theorem claim_C4_counterexample :
    ([((2:ℤ), (2:ℤ))] ≠ []) ∧
    brightness zoomGrid 4 4 2 2 (19/20 : ℚ) true false = some 2 ∧
    brightness zoomGrid 4 4 2 2 (19/20 : ℚ) false false = some 2 ∧
    brightness zoomGrid 4 4 2 2 (19/20 : ℚ) true true = some 2 ∧
    brightness zoomGrid 4 4 2 2 (19/20 : ℚ) false true = some 2 ∧
    zoomFitZero zoomGrid 4 4 [(2, 2)] ((0:ℚ), 3) ((0:ℚ), 3) 1 (19/20) =
      some ((1, 3), (1, 3), 2/3) ∧
    ¬((3:ℚ) < 3) :=
  ⟨by simp, zoomGrid_walk_min_x, zoomGrid_walk_min_y, zoomGrid_walk_max_x,
   zoomGrid_walk_max_y, zoomGrid_eval, by norm_num⟩

/-- C4, amended: for a non-empty zero index list on which the four
brightness walks succeed (with positive step, positive light threshold
and a proper real range, as in the documented contract), `zoom_fit_zero`
returns new bounds with `new_lo > old_lo` strictly on both axes but only
`new_hi ≤ old_hi` on the upper ends, and the new step satisfies
`new_step · ((old_re_hi - old_re_lo)/old_step) = new_re_hi - new_re_lo`;
when the new real range is non-degenerate this is the claimed sample
count preservation `(new_re_hi - new_re_lo)/new_step =
(old_re_hi - old_re_lo)/old_step`. -/
theorem claim_C4_zoom_shrink (value : ℕ → ℕ → α) (rows cols : ℕ)
    (p0 : ℤ × ℤ) (rest : List (ℤ × ℤ)) (reRange imRange : α × α) (step lightVal : α)
    (hstep : 0 < step) (hlv : 0 < lightVal) (hre : reRange.1 < reRange.2)
    (d1 d2 d3 d4 : ℕ)
    (h1 : brightness value rows cols (zoomBox rest p0).2.1 (zoomBox rest p0).2.2.2
      lightVal true false = some d1)
    (h2 : brightness value rows cols (zoomBox rest p0).1 (zoomBox rest p0).2.2.2
      lightVal false false = some d2)
    (h3 : brightness value rows cols (zoomBox rest p0).1 (zoomBox rest p0).2.2.1
      lightVal true true = some d3)
    (h4 : brightness value rows cols (zoomBox rest p0).2.1 (zoomBox rest p0).2.2.1
      lightVal false true = some d4) :
    ∃ lR uR lI uI s2,
      zoomFitZero value rows cols (p0 :: rest) reRange imRange step lightVal =
        some ((lR, uR), (lI, uI), s2) ∧
      reRange.1 < lR ∧ uR ≤ reRange.2 ∧ imRange.1 < lI ∧ uI ≤ imRange.2 ∧
      s2 * ((reRange.2 - reRange.1) / step) = uR - lR ∧
      (uR ≠ lR → (uR - lR) / s2 = (reRange.2 - reRange.1) / step) := by
  have hq : (reRange.2 - reRange.1) / step ≠ 0 :=
    ne_of_gt (div_pos (sub_pos.mpr hre) hstep)
  have hb1 := brightness_min_x_bound value rows cols _ _ lightVal hlv d1 h1
  have hb2 := brightness_min_y_bound value rows cols _ _ lightVal hlv d2 h2
  have hb3 := brightness_max_x_bound value rows cols _ _ lightVal hlv d3 h3
  have hb4 := brightness_max_y_bound value rows cols _ _ lightVal hlv d4 h4
  refine ⟨reRange.1 + (((zoomBox rest p0).2.1 - (d1 : ℤ) + 1 : ℤ) : α) * step,
    reRange.2 - (((cols : ℤ) - (zoomBox rest p0).1 - (d3 : ℤ) : ℤ) : α) * step,
    imRange.1 + (((zoomBox rest p0).2.2.2 - (d2 : ℤ) + 1 : ℤ) : α) * step,
    imRange.2 - (((rows : ℤ) - (zoomBox rest p0).2.2.1 - (d4 : ℤ) : ℤ) : α) * step,
    (reRange.2 - (((cols : ℤ) - (zoomBox rest p0).1 - (d3 : ℤ) : ℤ) : α) * step -
      (reRange.1 + (((zoomBox rest p0).2.1 - (d1 : ℤ) + 1 : ℤ) : α) * step)) /
      ((reRange.2 - reRange.1) / step),
    ?_, ?_, ?_, ?_, ?_, ?_, ?_⟩
  · unfold zoomFitZero
    dsimp only
    rw [h1, h2, h3, h4]
    dsimp only
    rw [if_neg (ne_of_gt hstep), if_neg hq]
  · -- strict lower bound, real axis
    have hk : (1 : α) ≤ (((zoomBox rest p0).2.1 - (d1 : ℤ) + 1 : ℤ) : α) := by
      have : (1 : ℤ) ≤ (zoomBox rest p0).2.1 - (d1 : ℤ) + 1 := by omega
      exact_mod_cast this
    nlinarith
  · -- upper bound, real axis
    have hk : (0 : α) ≤ (((cols : ℤ) - (zoomBox rest p0).1 - (d3 : ℤ) : ℤ) : α) := by
      have : (0 : ℤ) ≤ (cols : ℤ) - (zoomBox rest p0).1 - (d3 : ℤ) := by omega
      exact_mod_cast this
    nlinarith
  · -- strict lower bound, imaginary axis
    have hk : (1 : α) ≤ (((zoomBox rest p0).2.2.2 - (d2 : ℤ) + 1 : ℤ) : α) := by
      have : (1 : ℤ) ≤ (zoomBox rest p0).2.2.2 - (d2 : ℤ) + 1 := by omega
      exact_mod_cast this
    nlinarith
  · -- upper bound, imaginary axis
    have hk : (0 : α) ≤ (((rows : ℤ) - (zoomBox rest p0).2.2.1 - (d4 : ℤ) : ℤ) : α) := by
      have : (0 : ℤ) ≤ (rows : ℤ) - (zoomBox rest p0).2.2.1 - (d4 : ℤ) := by omega
      exact_mod_cast this
    nlinarith
  · exact div_mul_cancel₀ _ hq
  · intro hne
    rw [div_div_eq_mul_div, mul_comm, mul_div_assoc, div_self (sub_ne_zero.mpr hne), mul_one]

/-- C4, witness for the amended theorem at the concrete `zoomGrid`
instance (where the upper bounds are attained with equality). -/
theorem claim_C4_zoom_shrink_witness :
    (0:ℚ) < 1 ∧ (0:ℚ) < 19/20 ∧ (0:ℚ) < 3 ∧
    (∃ lR uR lI uI s2,
      zoomFitZero zoomGrid 4 4 [(2, 2)] ((0:ℚ), 3) ((0:ℚ), 3) 1 (19/20) =
        some ((lR, uR), (lI, uI), s2) ∧
      (0:ℚ) < lR ∧ uR ≤ 3 ∧ (0:ℚ) < lI ∧ uI ≤ 3 ∧
      s2 * ((3 - 0) / 1) = uR - lR ∧
      (uR ≠ lR → (uR - lR) / s2 = (3 - 0) / 1)) := by
  refine ⟨by norm_num, by norm_num, by norm_num, ?_⟩
  exact claim_C4_zoom_shrink zoomGrid 4 4 (2, 2) [] ((0:ℚ), 3) ((0:ℚ), 3) 1 (19/20)
    (by norm_num) (by norm_num) (by norm_num) 2 2 2 2
    zoomGrid_walk_min_x zoomGrid_walk_min_y zoomGrid_walk_max_x zoomGrid_walk_max_y

/-- C6: with a positive light threshold (the documented contract for
`light_val`), `zoom_to_zeros` returns its inputs unchanged exactly when
the index list is empty or one of the four outward brightness walks runs
off the grid; both situations return normally (`some`, no exception) and
no input is modified (the embedding is pure). -/
theorem claim_C6_zoom_unchanged_iff (value : ℕ → ℕ → α) (rows cols : ℕ)
    (zeroIndex : List (ℤ × ℤ)) (reRange imRange : α × α) (step lightVal : α)
    (hlv : 0 < lightVal) :
    zoomFitZero value rows cols zeroIndex reRange imRange step lightVal =
        some (reRange, imRange, step) ↔
      (zeroIndex = [] ∨ ∃ p0 rest, zeroIndex = p0 :: rest ∧
        (brightness value rows cols (zoomBox rest p0).2.1 (zoomBox rest p0).2.2.2
            lightVal true false = none ∨
         brightness value rows cols (zoomBox rest p0).1 (zoomBox rest p0).2.2.2
            lightVal false false = none ∨
         brightness value rows cols (zoomBox rest p0).1 (zoomBox rest p0).2.2.1
            lightVal true true = none ∨
         brightness value rows cols (zoomBox rest p0).2.1 (zoomBox rest p0).2.2.1
            lightVal false true = none)) := by
  constructor
  · intro h
    match zeroIndex with
    | [] => exact Or.inl rfl
    | p0 :: rest =>
      refine Or.inr ⟨p0, rest, rfl, ?_⟩
      by_contra hall
      push_neg at hall
      obtain ⟨hn1, hn2, hn3, hn4⟩ := hall
      obtain ⟨d1, hd1⟩ := Option.ne_none_iff_exists'.mp hn1
      obtain ⟨d2, hd2⟩ := Option.ne_none_iff_exists'.mp hn2
      obtain ⟨d3, hd3⟩ := Option.ne_none_iff_exists'.mp hn3
      obtain ⟨d4, hd4⟩ := Option.ne_none_iff_exists'.mp hn4
      unfold zoomFitZero at h
      dsimp only at h
      rw [hd1, hd2, hd3, hd4] at h
      dsimp only at h
      by_cases hstep : step = 0
      · rw [if_pos hstep] at h
        exact absurd h (by simp)
      · rw [if_neg hstep] at h
        by_cases hq : (reRange.2 - reRange.1) / step = 0
        · rw [if_pos hq] at h
          exact absurd h (by simp)
        · rw [if_neg hq] at h
          rw [Option.some_inj] at h
          have hlo : reRange.1 + (((zoomBox rest p0).2.1 - (d1 : ℤ) + 1 : ℤ) : α) * step =
              reRange.1 := congrArg (fun t => t.1.1) h
          have hb1 := brightness_min_x_bound value rows cols _ _ lightVal hlv d1 hd1
          have hk0 : (((zoomBox rest p0).2.1 - (d1 : ℤ) + 1 : ℤ) : α) * step = 0 := by
            linarith
          have hkz : (((zoomBox rest p0).2.1 - (d1 : ℤ) + 1 : ℤ) : α) ≠ 0 := by
            have hki : (1 : ℤ) ≤ (zoomBox rest p0).2.1 - (d1 : ℤ) + 1 := by omega
            have h1le : (1 : α) ≤ (((zoomBox rest p0).2.1 - (d1 : ℤ) + 1 : ℤ) : α) := by
              exact_mod_cast hki
            linarith
          exact absurd hk0 (mul_ne_zero hkz hstep)
  · intro h
    rcases h with rfl | ⟨p0, rest, rfl, hfail⟩
    · rfl
    · rcases hb1 : brightness value rows cols (zoomBox rest p0).2.1 (zoomBox rest p0).2.2.2
          lightVal true false with - | d1 <;>
        rcases hb2 : brightness value rows cols (zoomBox rest p0).1 (zoomBox rest p0).2.2.2
          lightVal false false with - | d2 <;>
        rcases hb3 : brightness value rows cols (zoomBox rest p0).1 (zoomBox rest p0).2.2.1
          lightVal true true with - | d3 <;>
        rcases hb4 : brightness value rows cols (zoomBox rest p0).2.1 (zoomBox rest p0).2.2.1
          lightVal false true with - | d4 <;>
        simp_all [zoomFitZero]

/-- C6, witness: on the empty index list the function returns the inputs
unchanged. -/
theorem claim_C6_zoom_unchanged_iff_witness :
    (0:ℚ) < 19/20 ∧
    (zoomFitZero zoomGrid 4 4 [] ((0:ℚ), 3) ((0:ℚ), 3) 1 (19/20) =
        some (((0:ℚ), 3), ((0:ℚ), 3), 1) ↔
      (([] : List (ℤ × ℤ)) = [] ∨ ∃ p0 rest, ([] : List (ℤ × ℤ)) = p0 :: rest ∧
        (brightness zoomGrid 4 4 (zoomBox rest p0).2.1 (zoomBox rest p0).2.2.2
            (19/20 : ℚ) true false = none ∨
         brightness zoomGrid 4 4 (zoomBox rest p0).1 (zoomBox rest p0).2.2.2
            (19/20 : ℚ) false false = none ∨
         brightness zoomGrid 4 4 (zoomBox rest p0).1 (zoomBox rest p0).2.2.1
            (19/20 : ℚ) true true = none ∨
         brightness zoomGrid 4 4 (zoomBox rest p0).2.1 (zoomBox rest p0).2.2.1
            (19/20 : ℚ) false true = none))) :=
  ⟨by norm_num,
   claim_C6_zoom_unchanged_iff zoomGrid 4 4 [] ((0:ℚ), 3) ((0:ℚ), 3) 1 (19/20) (by norm_num)⟩

end DomainColoring
